import Mathlib

/-!
Shallow embedding of jvozip (src/jvozip.py), a Huffman-coding byte-stream
compressor, together with proofs about its bit-packing primitives, its
container format, and the compress/decompress round trip.

Bytes are modelled as `Nat` (the program only ever feeds Python `bytes`, so
every element is below 256 — stated as a hypothesis where it matters), bit
strings as `List Bool` (digit 0 ↦ `false`, digit 1 ↦ `true`), fallible code as
`Except Err`, and Python dicts as insertion-ordered association lists.
-/

set_option autoImplicit false

deriving instance DecidableEq for Except

/-- Failure modes of jvozip, one constructor per runtime error site:
`doesNotFit` is the assertion in `Packer.pack` (carrying the offending value
and width), `noDataLeft` the assertion in `Unpacker.unpack`, `valueError`
the ValueError Python raises for `int` of an empty string, `keyError` a
missing dict key in
`compress`, and `indexError` the `nodes[0]` IndexError raised by
`HuffmanTree.__init__` on empty input. -/
inductive Err where
  | doesNotFit : Nat → Nat → Err
  | noDataLeft : Err
  | valueError : Err
  | keyError : Err
  | indexError : Err
deriving DecidableEq

/-- Big-endian rendering of the low `w` bits of `v`: bit `w-1` first, bit `0`
last.  This is how `format` with the 08b conversion renders a byte and how
`Packer.pack`
lays out a `w`-bit field. -/
def natToBits : Nat → Nat → List Bool
  | 0, _ => []
  | w + 1, v => v.testBit w :: natToBits w v

/-- Value of a big-endian bit string, as computed by Python `int(s, 2)` on
a non-empty string of binary digits. -/
def bitsToNat (l : List Bool) : Nat :=
  l.foldl (fun a b => 2 * a + (if b then 1 else 0)) 0

/-- Python `int(s, 2)`: a ValueError on the empty string, otherwise the
value of the binary digits. -/
def int2 (l : List Bool) : Except Err Nat :=
  if l = [] then .error .valueError else .ok (bitsToNat l)

/-- Concatenated 8-bit big-endian renderings of each byte, as built by
`Unpacker.__init__` via `format` with the 08b conversion.  The program only
ever feeds
`bytes` here, so each element is below 256 (`natToBits 8` truncates anything
larger). -/
def bytesToBits (data : List Nat) : List Bool :=
  data.flatMap (natToBits 8)

/-- State of the jvozip `Packer`: an unbounded integer used as a bit buffer,
plus the number of bits accumulated in it. -/
structure Packer where
  buffer : Nat
  bit_length : Nat
deriving DecidableEq

/-- Bits currently held by a `Packer`, MSB first: the low `bit_length` bits
of `buffer`. -/
def packerBits (p : Packer) : List Bool :=
  natToBits p.bit_length p.buffer

/-- Model of `Packer.pack`: assert `content & (2**length - 1) == content`,
then shift the buffer left and or the content in, growing the bit length. -/
def Packer.pack (p : Packer) (content length : Nat) : Except Err Packer :=
  if content &&& (2 ^ length - 1) = content then
    .ok ⟨p.buffer <<< length ||| content, p.bit_length + length⟩
  else
    .error (.doesNotFit content length)

/-- Byte-emission loop of `Packer.flush`: byte `n-1` (most significant) of
`buffer` down to byte `0`, each masked to 8 bits. -/
def natToBytes (buffer : Nat) : Nat → List Nat
  | 0 => []
  | n + 1 => ((buffer >>> (n * 8)) &&& 255) :: natToBytes buffer n

/-- Model of `Packer.flush`: zero-pad to a byte boundary with
`pad_bits = 8 - (bit_length % 8 or 8)`, emit the buffer most-significant
byte first, and reset the state to empty. -/
def Packer.flush (p : Packer) : List Nat × Packer :=
  let pad_bits := 8 - (if p.bit_length % 8 = 0 then 8 else p.bit_length % 8)
  let buffer := p.buffer <<< pad_bits
  let bit_length := p.bit_length + pad_bits
  (natToBytes buffer (bit_length / 8), ⟨0, 0⟩)

/-- State of the jvozip `Unpacker`: the bit string of the input bytes and a
cursor.  (The original also stores the raw bytes, unused after
construction.) -/
structure Unpacker where
  data_bit_string : List Bool
  bit_index : Nat
deriving DecidableEq

/-- Model of `Unpacker.__init__`. -/
def Unpacker.init (data : List Nat) : Unpacker :=
  ⟨bytesToBits data, 0⟩

/-- Model of `Unpacker.is_empty`: the cursor is at or past the end. -/
def Unpacker.is_empty (u : Unpacker) : Bool :=
  decide (u.data_bit_string.length ≤ u.bit_index)

/-- Model of `Unpacker.unpack`: assert only that SOME bit is unread, then
return the slice `data_bit_string[bit_index : bit_index + length]` — which
Python silently truncates when fewer than `length` bits remain — and advance
the cursor by the full `length`. -/
def Unpacker.unpack (u : Unpacker) (length : Nat) : Except Err (List Bool × Unpacker) :=
  if u.is_empty then .error .noDataLeft
  else .ok ((u.data_bit_string.drop u.bit_index).take length,
            ⟨u.data_bit_string, u.bit_index + length⟩)

/-- Huffman tree node.  The jvozip `Node` is a Python object with an optional
`content` and optional children, but the program only ever builds leaves
(a symbol and no children) and internal nodes (no symbol, both children),
which is what this inductive captures.  `occurences` keeps the spelling used
by the source. -/
inductive Node where
  | leaf (occurences : Nat) (content : Nat)
  | internal (occurences : Nat) (left right : Node)
deriving DecidableEq

/-- Occurrence count stored in a node. -/
def Node.occurences : Node → Nat
  | .leaf n _ => n
  | .internal n _ _ => n

/-- Discriminator: true on internal (merged) nodes. -/
def Node.isInternal : Node → Bool
  | .leaf _ _ => false
  | .internal _ _ _ => true

/-- Leaf symbols of a node, left to right. -/
def Node.syms : Node → List Nat
  | .leaf _ content => [content]
  | .internal _ l r => l.syms ++ r.syms

/-- Height of a node: leaves are at height 0. -/
def Node.height : Node → Nat
  | .leaf _ _ => 0
  | .internal _ l r => 1 + max l.height r.height

/-- Python dict assignment `d[k] = v` on an insertion-ordered association
list: an existing key keeps its position and receives the new value, a new
key is appended at the end. -/
def dictInsert {α β : Type} [DecidableEq α] : List (α × β) → α → β → List (α × β)
  | [], k, v => [(k, v)]
  | (k', v') :: rest, k, v =>
    if k = k' then (k, v) :: rest else (k', v') :: dictInsert rest k v

/-- Python `d1.update(d2)`: assign every entry of `d2` into `d1`, in order. -/
def dictUpdate {α β : Type} [DecidableEq α] (d1 d2 : List (α × β)) : List (α × β) :=
  d2.foldl (fun acc e => dictInsert acc e.1 e.2) d1

/-- Model of `Node.to_dict`: a leaf contributes its symbol mapped to the
accumulated path; an internal node merges the dicts of both children with the
path extended by `0` for left and `1` for right.  (The `path=None` default
becoming the empty string is the top-level call with `[]`.) -/
def Node.to_dict : Node → List Bool → List (Nat × List Bool)
  | .leaf _ content, path => [(content, path)]
  | .internal _ l r, path =>
    dictUpdate (l.to_dict (path ++ [false])) (r.to_dict (path ++ [true]))

/-- Combined model of `min(nodes, key=lambda n: n.occurences)` followed by
`nodes.remove(node1)`: Python `min` returns the first node of minimal
count, and `remove` (comparing by object identity here) deletes exactly that
position, so together the two calls extract the first minimal node and keep
the rest in order.  The list is passed as head and tail so it is never
empty. -/
def extractMin (n : Node) : List Node → Node × List Node
  | [] => (n, [])
  | m :: rest =>
    let p := extractMin m rest
    if n.occurences ≤ p.1.occurences then (n, m :: rest) else (p.1, n :: p.2)

/-- Model of the `while len(nodes) > 1` loop of `HuffmanTree.__init__`: take
the two minimal nodes out, append their parent.  Every iteration shrinks the
list by one, so `fuel := nodes.length` (as passed by `huffmanInit`) always
suffices; the fuel argument only makes the recursion structural, and the
unreachable inner `[]` case returns the empty list. -/
def mergeLoop : Nat → List Node → List Node
  | 0, nodes => nodes
  | fuel + 1, nodes =>
    match nodes with
    | n :: m :: rest =>
      match extractMin n (m :: rest) with
      | (node1, l1) =>
        match l1 with
        | [] => []
        | a :: l2 =>
          match extractMin a l2 with
          | (node2, l3) =>
            mergeLoop fuel
              (l3 ++ [Node.internal (node1.occurences + node2.occurences) node1 node2])
    | _ => nodes

/-- Model of the `HuffmanTree` object: the buffered input and the root. -/
structure HuffmanTree where
  data : List Nat
  root : Node
deriving DecidableEq

/-- Distinct symbols of the input.  Python iterates `set(data)` in an
unspecified order (spec §9: any deterministic order is allowed); this model
fixes the order of `List.dedup`. -/
def symbolsOf (data : List Nat) : List Nat :=
  data.dedup

/-- Model of `HuffmanTree.__init__`: one leaf per distinct symbol, weighted
by occurrence count, then the merge loop; `nodes[0]` raises IndexError on an
empty input. -/
def huffmanInit (data : List Nat) : Except Err HuffmanTree :=
  let symbols := symbolsOf data
  let nodes := symbols.map (fun s => Node.leaf (data.count s) s)
  match mergeLoop nodes.length nodes with
  | [] => .error .indexError
  | root :: _ => .ok ⟨data, root⟩

/-- Model of `HuffmanTree.to_dict`. -/
def HuffmanTree.to_dict (t : HuffmanTree) : List (Nat × List Bool) :=
  t.root.to_dict []

/-- Header-entry loop of `HuffmanTree.compress`: for each `(symbol, code)`
entry pack the symbol (8 bits), the code length (8 bits), and
`int(code, 2)` in `len(code)` bits. -/
def packEntries (p : Packer) : List (Nat × List Bool) → Except Err Packer
  | [] => .ok p
  | (symbol, code) :: rest =>
    match p.pack symbol 8 with
    | .error e => .error e
    | .ok p =>
      match p.pack code.length 8 with
      | .error e => .error e
      | .ok p =>
        match int2 code with
        | .error e => .error e
        | .ok code_value =>
          match p.pack code_value code.length with
          | .error e => .error e
          | .ok p => packEntries p rest

/-- Payload loop of `HuffmanTree.compress`: pack `int(code, 2)` of each
code of each input symbol (`coding_dict[symbol]` raises KeyError when
absent). -/
def packPayload (p : Packer) (coding_dict : List (Nat × List Bool)) :
    List Nat → Except Err Packer
  | [] => .ok p
  | symbol :: rest =>
    match List.lookup symbol coding_dict with
    | none => .error .keyError
    | some code =>
      match int2 code with
      | .error e => .error e
      | .ok v =>
        match p.pack v code.length with
        | .error e => .error e
        | .ok p => packPayload p coding_dict rest

/-- Model of `HuffmanTree.compress`: pack the table size minus one (8 bits),
the table entries, the input length (32 bits), the payload, then flush. -/
def HuffmanTree.compress (t : HuffmanTree) : Except Err (List Nat) :=
  let coding_dict := t.to_dict
  match Packer.pack ⟨0, 0⟩ (coding_dict.length - 1) 8 with
  | .error e => .error e
  | .ok p =>
    match packEntries p coding_dict with
    | .error e => .error e
    | .ok p =>
      match p.pack t.data.length 32 with
      | .error e => .error e
      | .ok p =>
        match packPayload p coding_dict t.data with
        | .error e => .error e
        | .ok p => .ok (p.flush).1

/-- Whole encoder as invoked by `__main__`: build the tree, compress. -/
def encode (data : List Nat) : Except Err (List Nat) :=
  match huffmanInit data with
  | .error e => .error e
  | .ok t => t.compress

/-- Header loop of `decompress`: read `codes_to_read` entries of
(symbol: 8 bits, code length: 8 bits, code: that many bits) into the
code → symbol dict. -/
def readCodes (u : Unpacker) (coding_dict : List (List Bool × Nat)) :
    Nat → Except Err (List (List Bool × Nat) × Unpacker)
  | 0 => .ok (coding_dict, u)
  | codes_to_read + 1 =>
    match u.unpack 8 with
    | .error e => .error e
    | .ok (s1, u) =>
      match int2 s1 with
      | .error e => .error e
      | .ok symbol =>
        match u.unpack 8 with
        | .error e => .error e
        | .ok (s2, u) =>
          match int2 s2 with
          | .error e => .error e
          | .ok code_length =>
            match u.unpack code_length with
            | .error e => .error e
            | .ok (code, u) =>
              readCodes u (dictInsert coding_dict code symbol) codes_to_read

/-- Payload loop of `decompress`: read one bit at a time into a scratch bit
string, emitting a symbol and resetting the scratch whenever it matches a
code, until the declared symbol count is reached.  Each iteration of
the Python `while symbols_to_read` loop consumes one bit, so the fuel passed by
`decompress` (bit-string length + 1) always dominates the remaining bits;
fuel only makes the recursion structural, and its exhaustion branch repeats
the error `unpack` raises on an exhausted stream. -/
def decodeLoop (coding_dict : List (List Bool × Nat)) :
    Nat → Unpacker → List Bool → Nat → Except Err (List Nat)
  | 0, _, _, _ => .error .noDataLeft
  | fuel + 1, u, bit_string, symbols_to_read =>
    if symbols_to_read = 0 then .ok []
    else
      match u.unpack 1 with
      | .error e => .error e
      | .ok (b, u') =>
        let bs := bit_string ++ b
        match List.lookup bs coding_dict with
        | some symbol =>
          match decodeLoop coding_dict fuel u' [] (symbols_to_read - 1) with
          | .ok rest => .ok (symbol :: rest)
          | .error e => .error e
        | none => decodeLoop coding_dict fuel u' bs symbols_to_read

/-- Model of `decompress`. -/
def decompress (data : List Nat) : Except Err (List Nat) :=
  match (Unpacker.init data).unpack 8 with
  | .error e => .error e
  | .ok (s1, u) =>
    match int2 s1 with
    | .error e => .error e
    | .ok n1 =>
      match readCodes u [] (n1 + 1) with
      | .error e => .error e
      | .ok (coding_dict, u) =>
        match u.unpack 32 with
        | .error e => .error e
        | .ok (s2, u) =>
          match int2 s2 with
          | .error e => .error e
          | .ok symbols_to_read =>
            decodeLoop coding_dict (u.data_bit_string.length + 1) u [] symbols_to_read

/-- Bit layout of the serialized code table: for each entry an 8-bit symbol,
an 8-bit code length, then the code itself (spec §6). -/
def entriesBits (entries : List (Nat × List Bool)) : List Bool :=
  entries.flatMap (fun e => natToBits 8 e.1 ++ natToBits 8 e.2.length ++ e.2)

/-- Concatenation of the codes of the input symbols, in input order (§6). -/
def payloadBits (coding_dict : List (Nat × List Bool)) (data : List Nat) : List Bool :=
  data.flatMap (fun s => (List.lookup s coding_dict).getD [])

/-- Unpadded bit stream of a compressed blob: header, table entries, 32-bit
symbol count, payload (spec §6 before padding). -/
def totalBits (t : HuffmanTree) : List Bool :=
  natToBits 8 (t.to_dict.length - 1) ++ entriesBits t.to_dict ++
    natToBits 32 t.data.length ++ payloadBits t.to_dict t.data

/-! ### Bit-string arithmetic -/

theorem length_natToBits (w v : Nat) : (natToBits w v).length = w := by
  induction w generalizing v with
  | zero => rfl
  | succ w ih => simp [natToBits, ih]

theorem natToBits_congr (w : Nat) {x y : Nat}
    (h : ∀ i, i < w → x.testBit i = y.testBit i) : natToBits w x = natToBits w y := by
  induction w with
  | zero => rfl
  | succ w ih =>
    simp only [natToBits]
    rw [h w (Nat.lt_succ_self w), ih (fun i hi => h i (Nat.lt_succ_of_lt hi))]

theorem natToBits_split (a b v : Nat) :
    natToBits (a + b) v = natToBits a (v >>> b) ++ natToBits b v := by
  induction a with
  | zero => simp [natToBits]
  | succ a ih =>
    have h1 : a + 1 + b = (a + b) + 1 := by omega
    rw [h1]
    simp only [natToBits, ih, List.cons_append]
    rw [Nat.testBit_shiftRight, Nat.add_comm b a]

theorem testBit_eq_false_of_lt_two_pow {v w i : Nat} (h : v < 2 ^ w) (hi : w ≤ i) :
    v.testBit i = false :=
  Nat.testBit_lt_two_pow (lt_of_lt_of_le h (Nat.pow_le_pow_right (by omega) hi))

theorem lt_two_pow_of_testBit_eq_false {v w : Nat}
    (h : ∀ i, w ≤ i → v.testBit i = false) : v < 2 ^ w := by
  have hv : v = v % 2 ^ w := by
    apply Nat.eq_of_testBit_eq
    intro i
    rw [Nat.testBit_mod_two_pow]
    by_cases hi : i < w
    · simp [hi]
    · simp [hi, h i (by omega)]
  rw [hv]
  exact Nat.mod_lt _ (Nat.two_pow_pos w)

theorem shiftLeft_or_shiftRight {w v : Nat} (x : Nat) (h : v < 2 ^ w) :
    (x <<< w ||| v) >>> w = x := by
  apply Nat.eq_of_testBit_eq
  intro i
  rw [Nat.testBit_shiftRight, Nat.testBit_or, Nat.testBit_shiftLeft,
      testBit_eq_false_of_lt_two_pow h (by omega)]
  simp [Nat.le_add_right, Nat.add_sub_cancel_left]

theorem natToBits_or_low {w v : Nat} (x : Nat) (h : v < 2 ^ w) :
    natToBits w (x <<< w ||| v) = natToBits w v := by
  apply natToBits_congr
  intro i hi
  rw [Nat.testBit_or, Nat.testBit_shiftLeft]
  simp [Nat.not_le.mpr hi]

theorem natToBits_zero (w : Nat) : natToBits w 0 = List.replicate w false := by
  induction w with
  | zero => rfl
  | succ w ih => simp [natToBits, Nat.zero_testBit, ih, List.replicate_succ]

theorem natToBits_shiftLeft_low (w x : Nat) :
    natToBits w (x <<< w) = List.replicate w false := by
  rw [← natToBits_zero w]
  apply natToBits_congr
  intro i hi
  rw [Nat.testBit_shiftLeft, Nat.zero_testBit]
  simp [Nat.not_le.mpr hi]

/-! ### Packer lemmas -/

theorem pack_eq_ok (p : Packer) (v w : Nat) (h : v < 2 ^ w) :
    p.pack v w = .ok ⟨p.buffer <<< w ||| v, p.bit_length + w⟩ := by
  unfold Packer.pack
  rw [Nat.and_pow_two_sub_one_eq_mod, Nat.mod_eq_of_lt h, if_pos rfl]

theorem pack_eq_error (p : Packer) (v w : Nat) (h : 2 ^ w ≤ v) :
    p.pack v w = .error (.doesNotFit v w) := by
  unfold Packer.pack
  rw [Nat.and_pow_two_sub_one_eq_mod, if_neg]
  have h1 : v % 2 ^ w < 2 ^ w := Nat.mod_lt _ (Nat.two_pow_pos w)
  omega

theorem packerBits_pack (p : Packer) (v w : Nat) (h : v < 2 ^ w) :
    packerBits ⟨p.buffer <<< w ||| v, p.bit_length + w⟩ = packerBits p ++ natToBits w v := by
  unfold packerBits
  rw [natToBits_split p.bit_length w _, shiftLeft_or_shiftRight _ h, natToBits_or_low _ h]

theorem length_packerBits (p : Packer) : (packerBits p).length = p.bit_length :=
  length_natToBits _ _

theorem length_natToBytes (buffer n : Nat) : (natToBytes buffer n).length = n := by
  induction n with
  | zero => rfl
  | succ n ih => simp [natToBytes, ih]

theorem bytesToBits_cons (b : Nat) (l : List Nat) :
    bytesToBits (b :: l) = natToBits 8 b ++ bytesToBits l := by
  simp [bytesToBits]

theorem natToBytes_lt (buffer n : Nat) : ∀ b ∈ natToBytes buffer n, b < 256 := by
  induction n with
  | zero => simp [natToBytes]
  | succ n ih =>
    simp only [natToBytes, List.mem_cons]
    rintro b (rfl | hb)
    · have h : (buffer >>> (n * 8)) &&& 255 ≤ 255 := Nat.and_le_right
      omega
    · exact ih b hb

theorem bytesToBits_natToBytes (buffer n : Nat) :
    bytesToBits (natToBytes buffer n) = natToBits (8 * n) buffer := by
  induction n with
  | zero => rfl
  | succ n ih =>
    have h8 : 8 * (n + 1) = 8 + 8 * n := by omega
    rw [natToBytes, bytesToBits_cons, ih, h8, natToBits_split 8 (8 * n) buffer]
    congr 1
    apply natToBits_congr
    intro i hi
    have h255 : (255 : Nat) = 2 ^ 8 - 1 := by norm_num
    rw [h255, Nat.and_pow_two_sub_one_eq_mod, Nat.testBit_mod_two_pow, Nat.mul_comm n 8]
    simp [hi]

theorem flush_def (p : Packer) :
    p.flush = (natToBytes
        (p.buffer <<< (8 - (if p.bit_length % 8 = 0 then 8 else p.bit_length % 8)))
        ((p.bit_length + (8 - (if p.bit_length % 8 = 0 then 8 else p.bit_length % 8))) / 8),
      (⟨0, 0⟩ : Packer)) := rfl

theorem flush_spec (p : Packer) :
    (p.flush).1.length * 8 = p.bit_length + (8 - p.bit_length % 8) % 8 ∧
    bytesToBits (p.flush).1 = packerBits p ++ List.replicate ((8 - p.bit_length % 8) % 8) false ∧
    (p.flush).2 = ⟨0, 0⟩ := by
  have hm : p.bit_length % 8 < 8 := Nat.mod_lt _ (by norm_num)
  have hpad : 8 - (if p.bit_length % 8 = 0 then 8 else p.bit_length % 8)
      = (8 - p.bit_length % 8) % 8 := by
    by_cases h : p.bit_length % 8 = 0 <;> simp [h] <;> omega
  have hdvd : (p.bit_length + (8 - p.bit_length % 8) % 8) % 8 = 0 := by omega
  refine ⟨?_, ?_, rfl⟩
  · rw [flush_def, hpad]
    simp only [length_natToBytes]
    omega
  · rw [flush_def, hpad, bytesToBits_natToBytes]
    have h8 : 8 * ((p.bit_length + (8 - p.bit_length % 8) % 8) / 8)
        = p.bit_length + (8 - p.bit_length % 8) % 8 := by omega
    rw [h8, natToBits_split p.bit_length ((8 - p.bit_length % 8) % 8) _,
        Nat.shiftLeft_shiftRight, natToBits_shiftLeft_low]
    rfl

/-! ### Unpacker lemmas -/

theorem unpack_eq_ok (u : Unpacker) (w : Nat) (h : u.bit_index < u.data_bit_string.length) :
    u.unpack w = .ok ((u.data_bit_string.drop u.bit_index).take w,
                      ⟨u.data_bit_string, u.bit_index + w⟩) := by
  unfold Unpacker.unpack Unpacker.is_empty
  simp [Nat.not_le.mpr h]

theorem unpack_eq_error (u : Unpacker) (w : Nat) (h : u.data_bit_string.length ≤ u.bit_index) :
    u.unpack w = .error .noDataLeft := by
  unfold Unpacker.unpack Unpacker.is_empty
  simp [h]

/-! ### Claims about the bit-packing primitives -/

/-- C6: `flush` pads with exactly `(8 - L % 8) % 8` zero bits (strictly fewer
than 8), emits a byte sequence whose bit rendering is the buffered bits
followed by that padding — hence a multiple of 8 bits, most-significant byte
first — and resets the buffer and bit-length counter so the packer is
reusable. -/
theorem C6_flush_pads_and_resets (p : Packer) :
    (8 - p.bit_length % 8) % 8 < 8 ∧
    bytesToBits (p.flush).1 = packerBits p ++ List.replicate ((8 - p.bit_length % 8) % 8) false ∧
    (p.flush).1.length * 8 = p.bit_length + (8 - p.bit_length % 8) % 8 ∧
    (p.flush).2 = ⟨0, 0⟩ := by
  obtain ⟨h1, h2, h3⟩ := flush_spec p
  exact ⟨by omega, h2, h1, h3⟩

/-- C7: `pack value width` fails with the does-not-fit error exactly when the
value has a set bit at position at or above `width`; otherwise it appends
exactly the low `width` bits of the value, most-significant bit first, and
grows the bit-length counter by `width`. -/
theorem C7_pack_contract (p : Packer) (v w : Nat) :
    (p.pack v w = .error (.doesNotFit v w) ↔ ∃ i, w ≤ i ∧ v.testBit i = true) ∧
    (v < 2 ^ w →
      p.pack v w = .ok ⟨p.buffer <<< w ||| v, p.bit_length + w⟩ ∧
      packerBits ⟨p.buffer <<< w ||| v, p.bit_length + w⟩ = packerBits p ++ natToBits w v) := by
  constructor
  · constructor
    · intro h
      by_contra hc
      push_neg at hc
      have hlt : v < 2 ^ w := lt_two_pow_of_testBit_eq_false (fun i hi => by
        simpa using hc i hi)
      rw [pack_eq_ok p v w hlt] at h
      exact absurd h (by simp)
    · rintro ⟨i, hi, hbit⟩
      apply pack_eq_error
      by_contra hc
      push_neg at hc
      rw [testBit_eq_false_of_lt_two_pow hc hi] at hbit
      exact absurd hbit (by simp)
  · intro h
    exact ⟨pack_eq_ok p v w h, packerBits_pack p v w h⟩

/-- Witness for C7: packing the value 5 into 3 bits on a fresh packer. -/
theorem C7_pack_contract_witness :
    (5 : Nat) < 2 ^ 3 ∧
    (Packer.pack ⟨0, 0⟩ 5 3 = .ok ⟨(0 : Nat) <<< 3 ||| 5, 0 + 3⟩ ∧
      packerBits ⟨(0 : Nat) <<< 3 ||| 5, 0 + 3⟩ = packerBits ⟨0, 0⟩ ++ natToBits 3 5) :=
  ⟨by norm_num, (C7_pack_contract ⟨0, 0⟩ 5 3).2 (by norm_num)⟩

/-- C3 counterexample: a fresh unpacker over the single byte 5 has only 8
unread bits, yet `unpack 9` succeeds — returning a truncated 8-bit result and
advancing the cursor past the end — instead of failing with the
exhausted-input error as the claim demands. -/
theorem C3_counterexample :
    (Unpacker.init [5]).data_bit_string.length - (Unpacker.init [5]).bit_index < 9 ∧
    (Unpacker.init [5]).unpack 9 =
      .ok (natToBits 8 5, ⟨(Unpacker.init [5]).data_bit_string, 9⟩) ∧
    (natToBits 8 5).length = 8 := by
  refine ⟨by decide, by decide, by decide⟩

/-- C3 as amended: `unpack width` fails with the exhausted-input error iff no
unread bit at all remains; whenever at least one bit is unread it succeeds,
returning the next `min width remaining` bits — possibly fewer than `width` —
and advancing the cursor by the full `width`. -/
theorem C3_unpack_amended (u : Unpacker) (w : Nat) :
    (u.unpack w = .error Err.noDataLeft ↔ u.data_bit_string.length ≤ u.bit_index) ∧
    (u.bit_index < u.data_bit_string.length →
      u.unpack w = .ok ((u.data_bit_string.drop u.bit_index).take w,
        ⟨u.data_bit_string, u.bit_index + w⟩) ∧
      ((u.data_bit_string.drop u.bit_index).take w).length
        = min w (u.data_bit_string.length - u.bit_index)) := by
  constructor
  · constructor
    · intro h
      by_contra hc
      push_neg at hc
      rw [unpack_eq_ok u w hc] at h
      exact absurd h (by simp)
    · exact unpack_eq_error u w
  · intro h
    refine ⟨unpack_eq_ok u w h, ?_⟩
    rw [List.length_take, List.length_drop]

/-- Witness for the amended C3, at the same one-byte unpacker and width 9. -/
theorem C3_unpack_amended_witness :
    (Unpacker.init [5]).bit_index < (Unpacker.init [5]).data_bit_string.length ∧
    ((Unpacker.init [5]).unpack 9 = .ok
        (((Unpacker.init [5]).data_bit_string.drop (Unpacker.init [5]).bit_index).take 9,
          ⟨(Unpacker.init [5]).data_bit_string, (Unpacker.init [5]).bit_index + 9⟩) ∧
      (((Unpacker.init [5]).data_bit_string.drop (Unpacker.init [5]).bit_index).take 9).length
        = min 9 ((Unpacker.init [5]).data_bit_string.length - (Unpacker.init [5]).bit_index)) :=
  ⟨by decide, (C3_unpack_amended (Unpacker.init [5]) 9).2 (by decide)⟩

/-! ### Values of bit strings -/

theorem bitsToNat_foldl (l : List Bool) (a : Nat) :
    l.foldl (fun a b => 2 * a + (if b then 1 else 0)) a = a * 2 ^ l.length + bitsToNat l := by
  induction l generalizing a with
  | nil => simp [bitsToNat]
  | cons b t ih =>
    show List.foldl _ (2 * a + _) t = _
    rw [ih]
    have hb : bitsToNat (b :: t) = (2 * 0 + (if b then 1 else 0)) * 2 ^ t.length + bitsToNat t := by
      show List.foldl _ _ (b :: t) = _
      rw [List.foldl_cons, ih]
    rw [hb]
    simp only [List.length_cons, pow_succ]
    ring

theorem bitsToNat_cons (b : Bool) (t : List Bool) :
    bitsToNat (b :: t) = (if b then 1 else 0) * 2 ^ t.length + bitsToNat t := by
  show List.foldl _ _ (b :: t) = _
  rw [List.foldl_cons, bitsToNat_foldl]
  simp

theorem bitsToNat_lt (l : List Bool) : bitsToNat l < 2 ^ l.length := by
  induction l with
  | nil => simp [bitsToNat]
  | cons b t ih =>
    rw [bitsToNat_cons]
    simp only [List.length_cons, pow_succ]
    cases b <;> simp <;> omega

/-! ### Association list lookups -/

theorem lookup_mem {α β : Type} [BEq α] [LawfulBEq α] {k : α} {v : β} {l : List (α × β)}
    (h : List.lookup k l = some v) : (k, v) ∈ l := by
  induction l with
  | nil => simp [List.lookup] at h
  | cons e t ih =>
    obtain ⟨a, b⟩ := e
    simp only [List.lookup] at h
    by_cases hk : (k == a) = true
    · simp only [hk] at h
      obtain rfl : b = v := by injection h
      obtain rfl : k = a := eq_of_beq hk
      exact List.mem_cons_self _ _
    · have hk2 : (k == a) = false := by simpa using hk
      simp only [hk2] at h
      exact List.mem_cons_of_mem _ (ih h)

theorem lookup_eq_none_of {α β : Type} [BEq α] [LawfulBEq α] {k : α} {l : List (α × β)}
    (h : ∀ e ∈ l, ¬ k = e.1) : List.lookup k l = none := by
  induction l with
  | nil => rfl
  | cons e t ih =>
    obtain ⟨a, b⟩ := e
    simp only [List.lookup]
    have hk : (k == a) = false := by
      have := h (a, b) (List.mem_cons_self _ _)
      simpa using this
    simp only [hk]
    exact ih (fun e he => h e (List.mem_cons_of_mem _ he))

theorem lookup_isSome_of_mem_keys {α β : Type} [BEq α] [LawfulBEq α] {k : α}
    {l : List (α × β)} (h : k ∈ l.map Prod.fst) : ∃ v, List.lookup k l = some v := by
  induction l with
  | nil => simp at h
  | cons e t ih =>
    obtain ⟨a, b⟩ := e
    simp only [List.map_cons, List.mem_cons] at h
    simp only [List.lookup]
    by_cases hk : (k == a) = true
    · simp only [hk]
      exact ⟨b, rfl⟩
    · have hk2 : (k == a) = false := by simpa using hk
      simp only [hk2]
      apply ih
      rcases h with h | h
      · exact absurd (beq_iff_eq.mpr h) hk
      · exact h

theorem mem_dictInsert {α β : Type} [DecidableEq α] {e : α × β} (k : α) (v : β) :
    ∀ {d : List (α × β)}, e ∈ dictInsert d k v → e = (k, v) ∨ e ∈ d := by
  intro d
  induction d with
  | nil => simp [dictInsert]
  | cons f t ih =>
    obtain ⟨a, b⟩ := f
    simp only [dictInsert]
    by_cases hk : k = a
    · simp only [if_pos hk, List.mem_cons]
      rintro (rfl | h)
      · exact .inl rfl
      · exact .inr (.inr h)
    · simp only [if_neg hk, List.mem_cons]
      rintro (rfl | h)
      · exact .inr (.inl rfl)
      · rcases ih h with h1 | h1
        · exact .inl h1
        · exact .inr (.inr h1)

/-! ### Inversion lemmas for the primitive steps -/

theorem unpack_ok_inv {u : Unpacker} {w : Nat} {r : List Bool} {u1 : Unpacker}
    (h : u.unpack w = .ok (r, u1)) :
    u.bit_index < u.data_bit_string.length ∧
    r = (u.data_bit_string.drop u.bit_index).take w ∧
    u1 = ⟨u.data_bit_string, u.bit_index + w⟩ := by
  by_cases hu : u.data_bit_string.length ≤ u.bit_index
  · rw [unpack_eq_error u w hu] at h
    exact absurd h (by simp)
  · push_neg at hu
    rw [unpack_eq_ok u w hu] at h
    simp only [Except.ok.injEq, Prod.mk.injEq] at h
    exact ⟨hu, h.1.symm, h.2.symm⟩

theorem int2_ok_inv {l : List Bool} {v : Nat} (h : int2 l = .ok v) :
    l ≠ [] ∧ v = bitsToNat l := by
  unfold int2 at h
  split at h
  · exact absurd h (by simp)
  · simp only [Except.ok.injEq] at h
    exact ⟨by assumption, h.symm⟩

/-! ### Key-length bound on decoder code tables -/

theorem readCodes_keys_le (c : Nat) :
    ∀ (u : Unpacker) (d0 d : List (List Bool × Nat)) (u1 : Unpacker),
      readCodes u d0 c = .ok (d, u1) →
      (∀ e ∈ d0, e.1.length ≤ 255) →
      ∀ e ∈ d, e.1.length ≤ 255 := by
  induction c with
  | zero =>
    intro u d0 d u1 h h0
    simp only [readCodes, Except.ok.injEq, Prod.mk.injEq] at h
    obtain ⟨rfl, rfl⟩ := h
    exact h0
  | succ c ih =>
    intro u d0 d u1 h h0
    simp only [readCodes] at h
    split at h
    · exact absurd h (by simp)
    rename_i s1 u2 h1
    split at h
    · exact absurd h (by simp)
    rename_i symbol h2
    split at h
    · exact absurd h (by simp)
    rename_i s2 u3 h3
    split at h
    · exact absurd h (by simp)
    rename_i code_length h4
    split at h
    · exact absurd h (by simp)
    rename_i code u4 h5
    apply ih _ _ _ _ h
    intro e he
    rcases mem_dictInsert code symbol he with rfl | he2
    · obtain ⟨_, hs2, _⟩ := unpack_ok_inv h3
      obtain ⟨_, hcl⟩ := int2_ok_inv h4
      obtain ⟨_, hcode, _⟩ := unpack_ok_inv h5
      have hs2len : s2.length ≤ 8 := by
        rw [hs2, List.length_take]
        omega
      have hv : bitsToNat s2 < 2 ^ s2.length := bitsToNat_lt s2
      have h2p : (2 : Nat) ^ s2.length ≤ 2 ^ 8 := Nat.pow_le_pow_right (by omega) hs2len
      have hclen : code.length ≤ code_length := by
        rw [hcode, List.length_take]
        omega
      show code.length ≤ 255
      norm_num at h2p
      omega
    · exact h0 e he2

/-! ### Failure behaviour of the decode loop -/

theorem decodeLoop_exhausted (d : List (List Bool × Nat)) (fuel : Nat) (u : Unpacker)
    (bs : List Bool) (n : Nat) (hn : n ≠ 0)
    (hu : u.data_bit_string.length ≤ u.bit_index) :
    decodeLoop d fuel u bs n = .error .noDataLeft := by
  cases fuel with
  | zero => rfl
  | succ fuel =>
    simp only [decodeLoop, if_neg hn, unpack_eq_error u 1 hu]

theorem decodeLoop_long_scratch (d : List (List Bool × Nat))
    (hd : ∀ e ∈ d, e.1.length ≤ 255) :
    ∀ (fuel : Nat) (u : Unpacker) (bs : List Bool) (n : Nat), n ≠ 0 → 255 < bs.length →
      u.data_bit_string.length - u.bit_index < fuel →
      decodeLoop d fuel u bs n = .error .noDataLeft := by
  intro fuel
  induction fuel with
  | zero => intro u bs n hn hbs hf; rfl
  | succ fuel ih =>
    intro u bs n hn hbs hf
    by_cases hu : u.data_bit_string.length ≤ u.bit_index
    · exact decodeLoop_exhausted d (fuel + 1) u bs n hn hu
    · push_neg at hu
      have hnone : List.lookup (bs ++ (u.data_bit_string.drop u.bit_index).take 1) d = none := by
        apply lookup_eq_none_of
        intro e he heq
        have h1 := hd e he
        have h2 : 255 < e.1.length := by
          rw [← heq, List.length_append]
          omega
        omega
      simp only [decodeLoop, if_neg hn, unpack_eq_ok u 1 hu, hnone]
      apply ih
      · exact hn
      · rw [List.length_append]; omega
      · simp only []
        omega

/-- C4: with a code table read from the header by `readCodes` (all of whose
codes are at most 255 bits, the widest width an 8-bit length field allows)
and at least one symbol still owed, the payload decode loop fails with the
exhausted-input assertion error when the bit stream is exhausted, and it also
fails whenever the scratch bit string has grown past 255 bits, since no code
can ever match it again and the loop keeps consuming until the stream runs
out.  `fuel` is the structural bound `decompress` passes, always larger than
the number of unread bits. -/
theorem C4_decode_failure (c : Nat) (u0 u1 : Unpacker) (d : List (List Bool × Nat))
    (hd : readCodes u0 [] c = .ok (d, u1))
    (fuel : Nat) (u : Unpacker) (bs : List Bool) (n : Nat) (hn : 0 < n)
    (hfuel : u.data_bit_string.length - u.bit_index < fuel) :
    (u.data_bit_string.length ≤ u.bit_index → decodeLoop d fuel u bs n = .error .noDataLeft) ∧
    (255 < bs.length → decodeLoop d fuel u bs n = .error .noDataLeft) := by
  have hkeys : ∀ e ∈ d, e.1.length ≤ 255 :=
    readCodes_keys_le c u0 [] d u1 hd (by simp)
  exact ⟨fun hu => decodeLoop_exhausted d fuel u bs n (by omega) hu,
         fun hbs => decodeLoop_long_scratch d hkeys fuel u bs n (by omega) hbs hfuel⟩

/-- Witness for C4: a one-entry table read from a concrete three-byte header,
then a decode loop facing an already exhausted stream with one symbol owed. -/
theorem C4_decode_failure_witness :
    readCodes (Unpacker.init [65, 1, 128]) [] 1 =
      .ok ([([true], 65)], ⟨bytesToBits [65, 1, 128], 17⟩) ∧
    decodeLoop [([true], 65)] 1 (Unpacker.init []) [] 1 = .error .noDataLeft := by
  refine ⟨by decide, ?_⟩
  exact (C4_decode_failure 1 (Unpacker.init [65, 1, 128]) ⟨bytesToBits [65, 1, 128], 17⟩
    [([true], 65)] (by decide) 1 (Unpacker.init []) [] 1 (by decide) (by decide)).1 (by decide)

/-! ### Round trip between bit strings and their values -/

theorem bitsToNat_natToBits (w v : Nat) : bitsToNat (natToBits w v) = v % 2 ^ w := by
  induction w with
  | zero => simp [natToBits, bitsToNat, Nat.mod_one]
  | succ w ih =>
    rw [natToBits, bitsToNat_cons, length_natToBits, ih, Nat.mod_pow_succ,
        Nat.testBit_to_div_mod]
    by_cases h : v / 2 ^ w % 2 = 1
    · simp [h]
      omega
    · have h0 : v / 2 ^ w % 2 = 0 := by omega
      simp [h, h0]

theorem bitsToNat_natToBits_eq (w v : Nat) (h : v < 2 ^ w) :
    bitsToNat (natToBits w v) = v := by
  rw [bitsToNat_natToBits, Nat.mod_eq_of_lt h]

theorem natToBits_mod (w v : Nat) : natToBits w (v % 2 ^ w) = natToBits w v := by
  apply natToBits_congr
  intro i hi
  rw [Nat.testBit_mod_two_pow]
  simp [hi]

theorem natToBits_bitsToNat (l : List Bool) : natToBits l.length (bitsToNat l) = l := by
  induction l with
  | nil => rfl
  | cons b t ih =>
    have hr : bitsToNat t < 2 ^ t.length := bitsToNat_lt t
    have hmod : ((if b then 1 else 0) * 2 ^ t.length + bitsToNat t) % 2 ^ t.length
        = bitsToNat t := by
      rw [Nat.add_comm, Nat.add_mul_mod_self_right, Nat.mod_eq_of_lt hr]
    have hdiv : ((if b then 1 else 0) * 2 ^ t.length + bitsToNat t) / 2 ^ t.length
        = (if b then 1 else 0) := by
      rw [Nat.add_comm, Nat.add_mul_div_right _ _ (Nat.two_pow_pos _),
          Nat.div_eq_of_lt hr, Nat.zero_add]
    rw [List.length_cons, natToBits, bitsToNat_cons]
    congr 1
    · rw [Nat.testBit_to_div_mod, hdiv]
      cases b <;> simp
    · rw [← natToBits_mod, hmod, ih]

theorem natToBits_of_length (l : List Bool) (w : Nat) (h : l.length = w) :
    natToBits w (bitsToNat l) = l := by
  rw [← h, natToBits_bitsToNat]

/-! ### Structure of the code table produced by `to_dict` -/

theorem dictInsert_fresh {α β : Type} [DecidableEq α] {k : α} (v : β) :
    ∀ {d : List (α × β)}, k ∉ d.map Prod.fst → dictInsert d k v = d ++ [(k, v)] := by
  intro d
  induction d with
  | nil => intro _; rfl
  | cons e t ih =>
    intro h
    obtain ⟨a, b⟩ := e
    simp only [List.map_cons, List.mem_cons] at h
    push_neg at h
    simp only [dictInsert, if_neg h.1, List.cons_append]
    rw [ih h.2]

theorem dictUpdate_append {α β : Type} [DecidableEq α] (d2 : List (α × β)) :
    ∀ (d1 : List (α × β)), (∀ k ∈ d2.map Prod.fst, k ∉ d1.map Prod.fst) →
      (d2.map Prod.fst).Nodup → dictUpdate d1 d2 = d1 ++ d2 := by
  induction d2 with
  | nil => intro d1 _ _; simp [dictUpdate]
  | cons e t ih =>
    intro d1 hdis hnd
    obtain ⟨k, v⟩ := e
    simp only [List.map_cons, List.nodup_cons] at hnd
    have hk : k ∉ d1.map Prod.fst := hdis k (by simp)
    have hstep : dictUpdate d1 ((k, v) :: t) = dictUpdate (dictInsert d1 k v) t := rfl
    have hdis2 : ∀ k2 ∈ t.map Prod.fst, k2 ∉ (d1 ++ [(k, v)]).map Prod.fst := by
      intro k2 hk2
      rw [List.map_append, List.mem_append]
      push_neg
      refine ⟨hdis k2 (by simp [hk2]), ?_⟩
      simp only [List.map_cons, List.map_nil, List.mem_singleton]
      intro hc
      rw [hc] at hk2
      exact hnd.1 hk2
    rw [hstep, dictInsert_fresh v hk, ih (d1 ++ [(k, v)]) hdis2 hnd.2]
    simp

theorem mem_dictUpdate {α β : Type} [DecidableEq α] {e : α × β} :
    ∀ {d2 d1 : List (α × β)}, e ∈ dictUpdate d1 d2 → e ∈ d1 ∨ e ∈ d2 := by
  intro d2
  induction d2 with
  | nil => intro d1 h; exact .inl h
  | cons f t ih =>
    intro d1 h
    obtain ⟨k, v⟩ := f
    have hstep : dictUpdate d1 ((k, v) :: t) = dictUpdate (dictInsert d1 k v) t := rfl
    rw [hstep] at h
    rcases ih h with h1 | h1
    · rcases mem_dictInsert k v h1 with rfl | h2
      · exact .inr (by simp)
      · exact .inl h2
    · exact .inr (List.mem_cons_of_mem _ h1)

theorem to_dict_path (n : Node) :
    ∀ (path : List Bool), ∀ e ∈ n.to_dict path,
      path <+: e.2 ∧ e.2.length ≤ path.length + n.height ∧
      (n.isInternal = true → path.length < e.2.length) := by
  induction n with
  | leaf occ c =>
    intro path e he
    simp only [Node.to_dict, List.mem_singleton] at he
    subst he
    refine ⟨List.prefix_refl _, by simp [Node.height], ?_⟩
    intro h
    simp [Node.isInternal] at h
  | internal occ l r ihl ihr =>
    intro path e he
    have hmax1 := le_max_left l.height r.height
    have hmax2 := le_max_right l.height r.height
    rcases mem_dictUpdate he with h1 | h1
    · obtain ⟨hp, hlen, _⟩ := ihl (path ++ [false]) e h1
      have hple := hp.length_le
      rw [List.length_append, List.length_singleton] at hlen hple
      refine ⟨(List.prefix_append path [false]).trans hp, ?_, fun _ => by omega⟩
      simp only [Node.height]
      omega
    · obtain ⟨hp, hlen, _⟩ := ihr (path ++ [true]) e h1
      have hple := hp.length_le
      rw [List.length_append, List.length_singleton] at hlen hple
      refine ⟨(List.prefix_append path [true]).trans hp, ?_, fun _ => by omega⟩
      simp only [Node.height]
      omega

theorem to_dict_spec (n : Node) :
    ∀ (path : List Bool), n.syms.Nodup →
      (n.to_dict path).map Prod.fst = n.syms ∧
      (n.to_dict path).Pairwise
        (fun e1 e2 => ¬ e1.2 <+: e2.2 ∧ ¬ e2.2 <+: e1.2) := by
  induction n with
  | leaf occ c =>
    intro path _
    simp [Node.to_dict, Node.syms]
  | internal occ l r ihl ihr =>
    intro path hnd
    simp only [Node.syms, List.nodup_append] at hnd
    obtain ⟨hndl, hndr, hdisj⟩ := hnd
    obtain ⟨hkl, hpl⟩ := ihl (path ++ [false]) hndl
    obtain ⟨hkr, hpr⟩ := ihr (path ++ [true]) hndr
    have hdis2 : ∀ k ∈ (r.to_dict (path ++ [true])).map Prod.fst,
        k ∉ (l.to_dict (path ++ [false])).map Prod.fst := by
      rw [hkl, hkr]
      intro k hk hk2
      exact hdisj hk2 hk
    have hupd : dictUpdate (l.to_dict (path ++ [false])) (r.to_dict (path ++ [true]))
        = l.to_dict (path ++ [false]) ++ r.to_dict (path ++ [true]) :=
      dictUpdate_append _ _ hdis2 (by rw [hkr]; exact hndr)
    constructor
    · simp only [Node.to_dict, hupd, List.map_append, hkl, hkr, Node.syms]
    · simp only [Node.to_dict, hupd]
      rw [List.pairwise_append]
      refine ⟨hpl, hpr, ?_⟩
      intro e1 he1 e2 he2
      obtain ⟨hp1, _, _⟩ := to_dict_path l (path ++ [false]) e1 he1
      obtain ⟨hp2, _, _⟩ := to_dict_path r (path ++ [true]) e2 he2
      obtain ⟨t1, ht1⟩ := hp1
      obtain ⟨t2, ht2⟩ := hp2
      constructor
      · intro hc
        obtain ⟨t3, ht3⟩ := hc
        rw [← ht1, ← ht2] at ht3
        simp only [List.append_assoc, List.cons_append, List.nil_append] at ht3
        have h4 := List.append_cancel_left ht3
        simp at h4
      · intro hc
        obtain ⟨t3, ht3⟩ := hc
        rw [← ht1, ← ht2] at ht3
        simp only [List.append_assoc, List.cons_append, List.nil_append] at ht3
        have h4 := List.append_cancel_left ht3
        simp at h4

/-! ### The merge loop builds one tree holding every symbol once -/

theorem extractMin_perm (n : Node) :
    ∀ (l : List Node), ((extractMin n l).1 :: (extractMin n l).2).Perm (n :: l) := by
  intro l
  induction l generalizing n with
  | nil => simp [extractMin]
  | cons m rest ih =>
    simp only [extractMin]
    split
    · exact List.Perm.refl _
    · exact (List.Perm.swap _ _ _).trans ((ih m).cons n)

theorem mergeLoop_step (fuel : Nat) (n m : Node) (rest : List Node) :
    ∃ n1 n2 l3,
      ((n1 :: n2 :: l3 : List Node)).Perm (n :: m :: rest) ∧
      mergeLoop (fuel + 1) (n :: m :: rest)
        = mergeLoop fuel (l3 ++ [Node.internal (n1.occurences + n2.occurences) n1 n2]) := by
  obtain ⟨n1, l1, hE1⟩ : ∃ a b, extractMin n (m :: rest) = (a, b) := ⟨_, _, rfl⟩
  have hperm1 : (n1 :: l1).Perm (n :: m :: rest) := by
    have h := extractMin_perm n (m :: rest)
    rw [hE1] at h
    exact h
  have hlen1 : l1.length = rest.length + 1 := by
    have h := hperm1.length_eq
    simp only [List.length_cons] at h
    omega
  cases l1 with
  | nil => simp at hlen1
  | cons a l2 =>
    obtain ⟨n2, l3, hE2⟩ : ∃ c d, extractMin a l2 = (c, d) := ⟨_, _, rfl⟩
    have hperm2 : (n2 :: l3).Perm (a :: l2) := by
      have h := extractMin_perm a l2
      rw [hE2] at h
      exact h
    refine ⟨n1, n2, l3, (hperm2.cons n1).trans hperm1, ?_⟩
    simp only [mergeLoop, hE1, hE2]

theorem mergeLoop_spec :
    ∀ (fuel : Nat) (nodes : List Node), nodes ≠ [] → nodes.length ≤ fuel + 1 →
      ∃ root, mergeLoop fuel nodes = [root] ∧
        root.syms.Perm (nodes.flatMap Node.syms) ∧
        ((∀ x ∈ nodes, x.syms ≠ [] ∧ x.height + 1 ≤ x.syms.length) →
          root.syms ≠ [] ∧ root.height + 1 ≤ root.syms.length) ∧
        (2 ≤ nodes.length → root.isInternal = true) ∧
        (nodes.length = 1 → root ∈ nodes) := by
  intro fuel
  induction fuel with
  | zero =>
    intro nodes hne hlen
    cases nodes with
    | nil => exact absurd rfl hne
    | cons x t =>
      cases t with
      | nil =>
        exact ⟨x, rfl, by simpa using List.Perm.refl x.syms,
          fun h => h x (by simp), fun h2 => by simp at h2, fun _ => by simp⟩
      | cons y t2 => simp at hlen
  | succ fuel ih =>
    intro nodes hne hlen
    cases nodes with
    | nil => exact absurd rfl hne
    | cons n t =>
      cases t with
      | nil =>
        exact ⟨n, rfl, by simpa using List.Perm.refl n.syms,
          fun h => h n (by simp), fun h2 => by simp at h2, fun _ => by simp⟩
      | cons m rest =>
        obtain ⟨n1, n2, l3, hperm, hstep⟩ := mergeLoop_step fuel n m rest
        have hlen3 : l3.length = rest.length := by
          have h := hperm.length_eq
          simp only [List.length_cons] at h
          omega
        have hsub : ∀ x, x ∈ n1 :: n2 :: l3 → x ∈ n :: m :: rest :=
          fun x hx => hperm.mem_iff.mp hx
        have hilen : (l3 ++ [Node.internal (n1.occurences + n2.occurences) n1 n2]).length
            ≤ fuel + 1 := by
          simp only [List.length_append, List.length_singleton]
          simp only [List.length_cons] at hlen
          omega
        obtain ⟨root, hroot, hsyms, hgood, hint, hmem⟩ :=
          ih (l3 ++ [Node.internal (n1.occurences + n2.occurences) n1 n2])
            (by simp) hilen
        refine ⟨root, by rw [hstep, hroot], ?_, ?_, ?_, ?_⟩
        · refine hsyms.trans ?_
          rw [List.flatMap_append]
          have h1 : ([Node.internal (n1.occurences + n2.occurences) n1 n2].flatMap Node.syms)
              = n1.syms ++ n2.syms := by simp [Node.syms]
          rw [h1]
          refine List.perm_append_comm.trans ?_
          have h2 : n1.syms ++ n2.syms ++ l3.flatMap Node.syms
              = (n1 :: n2 :: l3).flatMap Node.syms := by
            simp [List.flatMap_cons, List.append_assoc]
          rw [h2]
          exact hperm.flatMap_right Node.syms
        · intro hall
          apply hgood
          intro x hx
          rw [List.mem_append, List.mem_singleton] at hx
          rcases hx with hx | rfl
          · exact hall x (hsub x (by simp [hx]))
          · have hg1 := hall n1 (hsub n1 (by simp))
            have hg2 := hall n2 (hsub n2 (by simp))
            constructor
            · simp only [Node.syms]
              intro hc
              rw [List.append_eq_nil] at hc
              exact hg1.1 hc.1
            · simp only [Node.syms, Node.height, List.length_append]
              have hm1 := le_max_left n1.height n2.height
              have hm2 := le_max_right n1.height n2.height
              have hl1 : 1 ≤ n1.syms.length := List.length_pos.mpr hg1.1
              have hl2 : 1 ≤ n2.syms.length := List.length_pos.mpr hg2.1
              omega
        · intro _
          by_cases h3 : l3 = []
          · subst h3
            have hm := hmem (by simp)
            simp only [List.nil_append, List.mem_singleton] at hm
            rw [hm]
            rfl
          · apply hint
            have h4 : 1 ≤ l3.length := List.length_pos.mpr h3
            simp only [List.length_append, List.length_singleton]
            omega
        · intro hlen2
          simp at hlen2

/-! ### Properties of the finished Huffman tree -/

theorem flatMap_syms_map_leaf (data symbols : List Nat) :
    (symbols.map (fun s => Node.leaf (data.count s) s)).flatMap Node.syms = symbols := by
  induction symbols with
  | nil => rfl
  | cons s t ih => simp [Node.syms, ih]

theorem huffmanInit_ok (data : List Nat) (hne : data ≠ []) :
    ∃ t : HuffmanTree, huffmanInit data = .ok t ∧ t.data = data ∧
      t.root.syms.Perm (symbolsOf data) ∧
      t.root.syms.Nodup ∧
      t.root.height + 1 ≤ t.root.syms.length ∧
      (2 ≤ (symbolsOf data).length → t.root.isInternal = true) := by
  have hsne : symbolsOf data ≠ [] := by
    intro hc
    exact hne ((List.dedup_eq_nil data).mp hc)
  have hnodes : (symbolsOf data).map (fun s => Node.leaf (data.count s) s) ≠ [] := by
    simpa using hsne
  obtain ⟨root, hroot, hsyms, hgood, hint, _⟩ :=
    mergeLoop_spec ((symbolsOf data).map (fun s => Node.leaf (data.count s) s)).length
      ((symbolsOf data).map (fun s => Node.leaf (data.count s) s)) hnodes (by omega)
  rw [flatMap_syms_map_leaf] at hsyms
  have hgood2 := hgood (by
    intro x hx
    rw [List.mem_map] at hx
    obtain ⟨s, _, rfl⟩ := hx
    exact ⟨by simp [Node.syms], by simp [Node.syms, Node.height]⟩)
  refine ⟨⟨data, root⟩, ?_, rfl, hsyms, ?_, hgood2.2, ?_⟩
  · simp only [huffmanInit, hroot]
  · exact hsyms.nodup_iff.mpr (List.nodup_dedup data)
  · intro h2
    apply hint
    rw [List.length_map]
    exact h2

/-! ### The encoder packs exactly the container format -/

theorem pack_spec (p : Packer) (v w : Nat) (h : v < 2 ^ w) :
    ∃ q, p.pack v w = .ok q ∧ packerBits q = packerBits p ++ natToBits w v :=
  ⟨_, pack_eq_ok p v w h, packerBits_pack p v w h⟩

theorem int2_ok_of_ne_nil {l : List Bool} (h : l ≠ []) : int2 l = .ok (bitsToNat l) := by
  unfold int2
  rw [if_neg h]

theorem packEntries_spec :
    ∀ (entries : List (Nat × List Bool)) (p : Packer),
      (∀ e ∈ entries, e.1 < 256 ∧ e.2 ≠ [] ∧ e.2.length < 256) →
      ∃ q, packEntries p entries = .ok q ∧
        packerBits q = packerBits p ++ entriesBits entries := by
  intro entries
  induction entries with
  | nil => intro p _; exact ⟨p, rfl, by simp [entriesBits]⟩
  | cons e rest ih =>
    intro p hall
    obtain ⟨symbol, code⟩ := e
    obtain ⟨hs, hcne, hclen⟩ := hall (symbol, code) (by simp)
    have hs2 : symbol < 256 := hs
    have hcne2 : code ≠ [] := hcne
    have hclen2 : code.length < 256 := hclen
    have h28 : (256 : Nat) = 2 ^ 8 := by norm_num
    obtain ⟨p1, hp1, hb1⟩ := pack_spec p symbol 8 (by omega)
    obtain ⟨p2, hp2, hb2⟩ := pack_spec p1 code.length 8 (by omega)
    have hint2 : int2 code = .ok (bitsToNat code) := int2_ok_of_ne_nil hcne2
    obtain ⟨p3, hp3, hb3⟩ := pack_spec p2 (bitsToNat code) code.length (bitsToNat_lt code)
    obtain ⟨q, hq, hbq⟩ := ih p3 (fun x hx => hall x (List.mem_cons_of_mem _ hx))
    refine ⟨q, ?_, ?_⟩
    · simp only [packEntries, hp1, hp2, hint2, hp3, hq]
    · rw [hbq, hb3, hb2, hb1, natToBits_bitsToNat]
      simp [entriesBits, List.append_assoc]

theorem packPayload_spec (coding_dict : List (Nat × List Bool)) :
    ∀ (data : List Nat) (p : Packer),
      (∀ s ∈ data, ∃ c, List.lookup s coding_dict = some c ∧ c ≠ []) →
      ∃ q, packPayload p coding_dict data = .ok q ∧
        packerBits q = packerBits p ++ payloadBits coding_dict data := by
  intro data
  induction data with
  | nil => intro p _; exact ⟨p, rfl, by simp [payloadBits]⟩
  | cons sy rest ih =>
    intro p hall
    obtain ⟨c, hc, hcne⟩ := hall sy (by simp)
    have hint2 : int2 c = .ok (bitsToNat c) := int2_ok_of_ne_nil hcne
    obtain ⟨p1, hp1, hb1⟩ := pack_spec p (bitsToNat c) c.length (bitsToNat_lt c)
    obtain ⟨q, hq, hbq⟩ := ih p1 (fun x hx => hall x (List.mem_cons_of_mem _ hx))
    refine ⟨q, ?_, ?_⟩
    · simp only [packPayload, hc, hint2, hp1, hq]
    · rw [hbq, hb1, natToBits_bitsToNat]
      simp [payloadBits, hc, List.append_assoc]

theorem compress_spec (t : HuffmanTree)
    (hlen : t.to_dict.length ≤ 256) (hne : t.to_dict ≠ [])
    (hentry : ∀ e ∈ t.to_dict, e.1 < 256 ∧ e.2 ≠ [] ∧ e.2.length < 256)
    (hdata : ∀ s ∈ t.data, ∃ c, List.lookup s t.to_dict = some c ∧ c ≠ [])
    (h32 : t.data.length < 2 ^ 32) :
    ∃ blob, t.compress = .ok blob ∧
      bytesToBits blob = totalBits t ++
        List.replicate ((8 - (totalBits t).length % 8) % 8) false ∧
      (∀ b ∈ blob, b < 256) := by
  have h28 : (256 : Nat) = 2 ^ 8 := by norm_num
  have hdlen : 1 ≤ t.to_dict.length := List.length_pos.mpr hne
  obtain ⟨p1, hp1, hb1⟩ := pack_spec ⟨0, 0⟩ (t.to_dict.length - 1) 8 (by omega)
  obtain ⟨p2, hp2, hb2⟩ := packEntries_spec t.to_dict p1 hentry
  obtain ⟨p3, hp3, hb3⟩ := pack_spec p2 t.data.length 32 h32
  obtain ⟨p4, hp4, hb4⟩ := packPayload_spec t.to_dict t.data p3 hdata
  have hbits : packerBits p4 = totalBits t := by
    rw [hb4, hb3, hb2, hb1]
    have h0 : packerBits ⟨0, 0⟩ = [] := rfl
    rw [h0]
    simp [totalBits, List.append_assoc]
  have hblen : p4.bit_length = (totalBits t).length := by
    rw [← length_packerBits, hbits]
  obtain ⟨hf1, hf2, _⟩ := flush_spec p4
  refine ⟨(p4.flush).1, ?_, ?_, ?_⟩
  · show HuffmanTree.compress t = _
    simp only [HuffmanTree.compress, hp1, hp2, hp3, hp4]
  · rw [hf2, hbits, hblen]
  · intro b hb
    rw [flush_def] at hb
    exact natToBytes_lt _ _ b hb

/-! ### The finished tree yields a well-formed code table -/

theorem to_dict_props (data : List Nat) (hne : data ≠ []) (h256 : ∀ b ∈ data, b < 256)
    (h2 : 2 ≤ (symbolsOf data).length) :
    ∃ t : HuffmanTree, huffmanInit data = .ok t ∧ t.data = data ∧
      (t.to_dict.map Prod.fst).Perm (symbolsOf data) ∧
      t.to_dict.Pairwise (fun e1 e2 => ¬ e1.2 <+: e2.2 ∧ ¬ e2.2 <+: e1.2) ∧
      (∀ e ∈ t.to_dict, e.1 < 256 ∧ e.2 ≠ [] ∧ e.2.length < 256) ∧
      2 ≤ t.to_dict.length ∧ t.to_dict.length ≤ 256 ∧
      (∀ s ∈ data, ∃ c, List.lookup s t.to_dict = some c ∧ c ≠ []) := by
  obtain ⟨t, hinit, hdata, hperm, hnd, hheight, hint⟩ := huffmanInit_ok data hne
  have hintl := hint h2
  obtain ⟨hkeys, hpf⟩ := to_dict_spec t.root [] hnd
  have hdictdef : t.to_dict = t.root.to_dict [] := rfl
  rw [← hdictdef] at hkeys hpf
  have hsublen : (symbolsOf data).length ≤ 256 := by
    have hsubset : symbolsOf data ⊆ List.range 256 := by
      intro x hx
      rw [List.mem_range]
      exact h256 x (List.mem_dedup.mp hx)
    have hsp := (List.subperm_of_subset (List.nodup_dedup data) hsubset).length_le
    simpa using hsp
  have hsymlen : t.root.syms.length = (symbolsOf data).length := hperm.length_eq
  have hdictlen : t.to_dict.length = t.root.syms.length := by
    rw [← hkeys, List.length_map]
  have hentry : ∀ e ∈ t.to_dict, e.1 < 256 ∧ e.2 ≠ [] ∧ e.2.length < 256 := by
    intro e he
    obtain ⟨_, helen, hepos⟩ := to_dict_path t.root [] e he
    have hek : e.1 ∈ t.root.syms := by
      rw [← hkeys]
      exact List.mem_map_of_mem Prod.fst he
    have hes : e.1 ∈ symbolsOf data := hperm.mem_iff.mp hek
    refine ⟨h256 e.1 (List.mem_dedup.mp hes), ?_, ?_⟩
    · have h0 := hepos hintl
      simp only [List.length_nil] at h0
      intro hc
      rw [hc] at h0
      simp at h0
    · simp only [List.length_nil, Nat.zero_add] at helen
      omega
  refine ⟨t, hinit, hdata, by rw [hkeys]; exact hperm, hpf, hentry, ?_, ?_, ?_⟩
  · omega
  · omega
  · intro sy hsy
    have hsy2 : sy ∈ symbolsOf data := List.mem_dedup.mpr hsy
    have hsy3 : sy ∈ t.to_dict.map Prod.fst := by
      rw [hkeys]
      exact hperm.mem_iff.mpr hsy2
    obtain ⟨c, hc⟩ := lookup_isSome_of_mem_keys hsy3
    refine ⟨c, hc, (hentry (sy, c) (lookup_mem hc)).2.1⟩

theorem encode_spec (data : List Nat) (hne : data ≠ []) (h256 : ∀ b ∈ data, b < 256)
    (h2 : 2 ≤ (symbolsOf data).length) (h32 : data.length < 2 ^ 32) :
    ∃ t blob, huffmanInit data = .ok t ∧ t.compress = .ok blob ∧ encode data = .ok blob ∧
      t.data = data ∧
      (t.to_dict.map Prod.fst).Perm (symbolsOf data) ∧
      t.to_dict.Pairwise (fun e1 e2 => ¬ e1.2 <+: e2.2 ∧ ¬ e2.2 <+: e1.2) ∧
      (∀ e ∈ t.to_dict, e.1 < 256 ∧ e.2 ≠ [] ∧ e.2.length < 256) ∧
      2 ≤ t.to_dict.length ∧ t.to_dict.length ≤ 256 ∧
      (∀ s ∈ data, ∃ c, List.lookup s t.to_dict = some c ∧ c ≠ []) ∧
      bytesToBits blob = totalBits t ++
        List.replicate ((8 - (totalBits t).length % 8) % 8) false := by
  obtain ⟨t, hinit, hdata, hperm, hpf, hentry, hd2, hd256, hdict⟩ :=
    to_dict_props data hne h256 h2
  obtain ⟨blob, hcomp, hbits, _⟩ := compress_spec t hd256
    (by intro hc; rw [hc] at hd2; simp at hd2)
    hentry (by rw [hdata]; exact hdict) (by rw [hdata]; exact h32)
  refine ⟨t, blob, hinit, hcomp, ?_, hdata, hperm, hpf, hentry, hd2, hd256, hdict, hbits⟩
  simp only [encode, hinit, hcomp]

theorem encode_too_long (data : List Nat) (hne : data ≠ []) (h256 : ∀ b ∈ data, b < 256)
    (h2 : 2 ≤ (symbolsOf data).length) (h32 : 2 ^ 32 ≤ data.length) :
    encode data = .error (.doesNotFit data.length 32) := by
  obtain ⟨t, hinit, hdata, hperm, hpf, hentry, hd2, hd256, hdict⟩ :=
    to_dict_props data hne h256 h2
  subst hdata
  have h28 : (256 : Nat) = 2 ^ 8 := by norm_num
  obtain ⟨p1, hp1, _⟩ := pack_spec ⟨0, 0⟩ (t.to_dict.length - 1) 8 (by omega)
  obtain ⟨p2, hp2, _⟩ := packEntries_spec t.to_dict p1 hentry
  have hp3 : p2.pack t.data.length 32 = .error (.doesNotFit t.data.length 32) :=
    pack_eq_error p2 t.data.length 32 h32
  simp only [encode, hinit, HuffmanTree.compress, hp1, hp2, hp3]

theorem encode_single_symbol (data : List Nat) (s : Nat) (hs : symbolsOf data = [s])
    (h256 : s < 256) : encode data = .error .valueError := by
  have hinit : huffmanInit data = .ok ⟨data, Node.leaf (data.count s) s⟩ := by
    unfold huffmanInit
    rw [hs]
    rfl
  have h28 : (256 : Nat) = 2 ^ 8 := by norm_num
  have hp1 := pack_eq_ok ⟨0, 0⟩ 0 8 (by omega)
  have hp2 := pack_eq_ok (⟨(0 : Nat) <<< 8 ||| 0, 0 + 8⟩ : Packer) s 8 (by omega)
  have hp3 := pack_eq_ok (⟨((0 : Nat) <<< 8 ||| 0) <<< 8 ||| s, 0 + 8 + 8⟩ : Packer) 0 8
    (by omega)
  have hi2 : int2 ([] : List Bool) = .error .valueError := rfl
  have hdict : (HuffmanTree.mk data (Node.leaf (data.count s) s)).to_dict = [(s, [])] := rfl
  simp only [encode, hinit, HuffmanTree.compress, hdict, List.length_singleton,
    List.length_nil, Nat.sub_self, packEntries, hp1, hp2, hp3, hi2]

theorem dedup_replicate (nn a : Nat) (h : nn ≠ 0) :
    (List.replicate nn a).dedup = [a] := by
  induction nn with
  | zero => exact absurd rfl h
  | succ k ih =>
    by_cases hk : k = 0
    · subst hk
      simp
    · rw [List.replicate_succ,
          List.dedup_cons_of_mem (by rw [List.mem_replicate]; exact ⟨hk, rfl⟩)]
      exact ih hk

/-! ### Claims about the encoder -/

/-- C9: compressing the empty input fails (the `nodes[0]` IndexError raised
while building the tree) and therefore produces no output bytes. -/
theorem C9_empty_input : encode [] = .error .indexError := by decide

/-- C2 (code bug): an input consisting of one repeated byte value does not
get the 1-bit code "0" — `Node.to_dict` gives the lone root leaf the EMPTY
code, so `compress` evaluates `int` of an empty string, which raises
ValueError:
compression crashes and nothing round-trips. -/
theorem C2_single_symbol_crash : encode [65, 65] = .error .valueError := by decide

/-- C5 counterexample: a non-empty input with a single distinct byte value
produces no blob at all — the encoder fails with the ValueError of C2 — so
the claimed layout does not hold for every non-empty input. -/
theorem C5_counterexample : encode [65] = .error .valueError ∧
    ∀ blob, encode [65] ≠ .ok blob := by
  refine ⟨by decide, ?_⟩
  intro blob h
  rw [show encode [65] = .error .valueError from by decide] at h
  exact absurd h (by simp)

/-- C5 as amended: for every non-empty byte input with at least two distinct
values and fewer than `2^32` bytes, the blob is exactly the §6 container:
an 8-bit symbol-count-minus-1 field, the table entries (8-bit symbol, 8-bit
code length, the code), a 32-bit total-symbol count, the concatenated codes
of the input in order, then `(8 - L % 8) % 8 < 8` zero padding bits. -/
theorem C5_container_format (data : List Nat) (hne : data ≠ []) (h256 : ∀ b ∈ data, b < 256)
    (h2 : 2 ≤ (symbolsOf data).length) (h32 : data.length < 2 ^ 32) :
    ∃ t blob stream, huffmanInit data = .ok t ∧ encode data = .ok blob ∧
      stream = natToBits 8 (t.to_dict.length - 1) ++ entriesBits t.to_dict ++
        natToBits 32 data.length ++ payloadBits t.to_dict data ∧
      bytesToBits blob = stream ++ List.replicate ((8 - stream.length % 8) % 8) false ∧
      (8 - stream.length % 8) % 8 < 8 := by
  obtain ⟨t, blob, hinit, hcomp, henc, hdata, hperm, hpf, hentry, hd2, hd256, hdict, hbits⟩ :=
    encode_spec data hne h256 h2 h32
  refine ⟨t, blob, totalBits t, hinit, henc, ?_, hbits, by omega⟩
  unfold totalBits
  rw [hdata]

/-- Witness for the amended C5 at the two-byte input `[65, 66]`. -/
theorem C5_container_format_witness :
    (([65, 66] : List Nat) ≠ [] ∧ (∀ b ∈ ([65, 66] : List Nat), b < 256) ∧
      2 ≤ (symbolsOf [65, 66]).length ∧ ([65, 66] : List Nat).length < 2 ^ 32) ∧
    (∃ t blob stream, huffmanInit [65, 66] = .ok t ∧ encode [65, 66] = .ok blob ∧
      stream = natToBits 8 (t.to_dict.length - 1) ++ entriesBits t.to_dict ++
        natToBits 32 ([65, 66] : List Nat).length ++ payloadBits t.to_dict [65, 66] ∧
      bytesToBits blob = stream ++ List.replicate ((8 - stream.length % 8) % 8) false ∧
      (8 - stream.length % 8) % 8 < 8) :=
  ⟨⟨by decide, by decide, by decide, by decide⟩,
    C5_container_format [65, 66] (by decide) (by decide) (by decide) (by decide)⟩

/-- C10 counterexample: an input of length `2^32` made of one repeated byte
does NOT fail with the does-not-fit error on the 32-bit length field — it
fails earlier, with the ValueError of the single-symbol bug (C2), before the
`pack(len(data), 32)` call is reached. -/
theorem C10_counterexample :
    encode (List.replicate (2 ^ 32) 65) = .error .valueError ∧
    encode (List.replicate (2 ^ 32) 65) ≠
      .error (.doesNotFit (List.replicate (2 ^ 32) 65).length 32) := by
  have h := encode_single_symbol (List.replicate (2 ^ 32) 65) 65
    (dedup_replicate _ _ (by norm_num)) (by norm_num)
  refine ⟨h, ?_⟩
  rw [h]
  intro hc
  exact Err.noConfusion (Except.error.inj hc)

/-- C10 as amended: `compress` serializes the input length with
`pack(len(data), 32)`, so compression of a byte input with at least two
distinct values and length at least `2^32` fails with the does-not-fit error
on that field (single-symbol inputs of such length fail earlier, with the
ValueError of C2); for any input of length below `2^32` that pack call
succeeds against every packer state, so its error branch is unreachable.
The spec states no such input-length bound. -/
theorem C10_length_limit (data : List Nat) (hne : data ≠ []) (h256 : ∀ b ∈ data, b < 256)
    (h2 : 2 ≤ (symbolsOf data).length) :
    (2 ^ 32 ≤ data.length → encode data = .error (.doesNotFit data.length 32)) ∧
    (data.length < 2 ^ 32 → ∀ p : Packer, ∃ q, p.pack data.length 32 = .ok q) := by
  constructor
  · intro h32
    exact encode_too_long data hne h256 h2 h32
  · intro h32 p
    exact ⟨_, pack_eq_ok p data.length 32 h32⟩

/-- Witness for C10 at the two-byte input `[0, 1]`, exercising the
under-the-bound arm on the empty packer. -/
theorem C10_length_limit_witness :
    ∃ q, Packer.pack ⟨0, 0⟩ ([0, 1] : List Nat).length 32 = .ok q :=
  (C10_length_limit [0, 1] (by decide) (by decide) (by decide)).2 (by decide) ⟨0, 0⟩

/-! ### Claim C8: the code table is prefix-free -/

/-- C8: for every non-empty byte input with at least two distinct values, the
code table derived from the Huffman tree is prefix-free — for any two entries
with distinct symbols, neither code is a prefix of the other. -/
theorem C8_prefix_free (data : List Nat) (hne : data ≠ []) (h256 : ∀ b ∈ data, b < 256)
    (h2 : 2 ≤ (symbolsOf data).length) (t : HuffmanTree) (ht : huffmanInit data = .ok t) :
    ∀ e1 ∈ t.to_dict, ∀ e2 ∈ t.to_dict, e1.1 ≠ e2.1 →
      ¬ (e1.2 <+: e2.2) ∧ ¬ (e2.2 <+: e1.2) := by
  obtain ⟨t2, hinit2, _, _, hpf, _, _, _, _⟩ := to_dict_props data hne h256 h2
  have ht2 : t2 = t := by
    rw [hinit2] at ht
    exact Except.ok.inj ht
  subst ht2
  intro e1 he1 e2 he2 hne12
  have hsymm : Symmetric (fun e1 e2 : Nat × List Bool =>
      ¬ e1.2 <+: e2.2 ∧ ¬ e2.2 <+: e1.2) := fun a b hab => ⟨hab.2, hab.1⟩
  exact hpf.forall hsymm he1 he2 (fun hc => hne12 (by rw [hc]))

/-- Witness for C8 on the input `[65, 66]`, whose tree assigns `0` to 65 and
`1` to 66. -/
theorem C8_prefix_free_witness :
    ¬ ([false] <+: [true]) ∧ ¬ ([true] <+: [false]) :=
  C8_prefix_free [65, 66] (by decide) (by decide) (by decide)
    ⟨[65, 66], Node.internal 2 (Node.leaf 1 65) (Node.leaf 1 66)⟩ (by decide)
    (65, [false]) (by decide) (66, [true]) (by decide) (by decide)

/-! ### The decoder reads back exactly what the encoder wrote -/

theorem natToBits_ne_nil {w v : Nat} (h : 0 < w) : natToBits w v ≠ [] := by
  intro hc
  have h2 := length_natToBits w v
  rw [hc] at h2
  simp at h2
  omega

theorem drop_add_of_drop_eq {l a b : List Bool} {i : Nat}
    (h : l.drop i = a ++ b) : l.drop (i + a.length) = b := by
  rw [← List.drop_drop, h, List.drop_left]

theorem unpack_exact (u : Unpacker) (w : Nat) (want rest : List Bool)
    (hw : want.length = w) (hne : want ≠ [])
    (hdrop : u.data_bit_string.drop u.bit_index = want ++ rest) :
    u.unpack w = .ok (want, ⟨u.data_bit_string, u.bit_index + w⟩) := by
  have hlt : u.bit_index < u.data_bit_string.length := by
    by_contra hc
    push_neg at hc
    rw [List.drop_eq_nil_of_le hc] at hdrop
    cases want with
    | nil => exact hne rfl
    | cons x y => simp at hdrop
  rw [unpack_eq_ok u w hlt, hdrop, ← hw, List.take_left]

theorem readCodes_exact :
    ∀ (entries : List (Nat × List Bool)) (u : Unpacker) (d0 : List (List Bool × Nat))
      (rest : List Bool),
      u.data_bit_string.drop u.bit_index = entriesBits entries ++ rest →
      (∀ e ∈ entries, e.1 < 256 ∧ e.2 ≠ [] ∧ e.2.length < 256) →
      readCodes u d0 entries.length =
        .ok (entries.foldl (fun d e => dictInsert d e.2 e.1) d0,
             ⟨u.data_bit_string, u.bit_index + (entriesBits entries).length⟩) := by
  intro entries
  induction entries with
  | nil =>
    intro u d0 rest hdrop _
    simp [readCodes, entriesBits]
  | cons e rest2 ih =>
    intro u d0 rest hdrop hall
    obtain ⟨symbol, code⟩ := e
    obtain ⟨hs, hcne, hclen⟩ := hall (symbol, code) (by simp)
    have hs2 : symbol < 256 := hs
    have hcne2 : code ≠ [] := hcne
    have hclen2 : code.length < 256 := hclen
    have h28 : (256 : Nat) = 2 ^ 8 := by norm_num
    have hd1 : u.data_bit_string.drop u.bit_index
        = natToBits 8 symbol ++ (natToBits 8 code.length ++ (code ++
            (entriesBits rest2 ++ rest))) := by
      rw [hdrop]
      simp [entriesBits, List.append_assoc]
    have hu1 := unpack_exact u 8 (natToBits 8 symbol) _
      (length_natToBits 8 symbol) (natToBits_ne_nil (by omega)) hd1
    have hi1 : int2 (natToBits 8 symbol) = .ok symbol := by
      rw [int2_ok_of_ne_nil (natToBits_ne_nil (by omega)),
          bitsToNat_natToBits_eq 8 symbol (by omega)]
    have hd2 : u.data_bit_string.drop (u.bit_index + 8)
        = natToBits 8 code.length ++ (code ++ (entriesBits rest2 ++ rest)) := by
      have h := drop_add_of_drop_eq hd1
      rw [length_natToBits] at h
      exact h
    have hu2 := unpack_exact ⟨u.data_bit_string, u.bit_index + 8⟩ 8
      (natToBits 8 code.length) _ (length_natToBits 8 code.length)
      (natToBits_ne_nil (by omega)) hd2
    have hi2 : int2 (natToBits 8 code.length) = .ok code.length := by
      rw [int2_ok_of_ne_nil (natToBits_ne_nil (by omega)),
          bitsToNat_natToBits_eq 8 code.length (by omega)]
    have hd3 : u.data_bit_string.drop (u.bit_index + 8 + 8)
        = code ++ (entriesBits rest2 ++ rest) := by
      have h := drop_add_of_drop_eq hd2
      rw [length_natToBits] at h
      exact h
    have hu3 := unpack_exact ⟨u.data_bit_string, u.bit_index + 8 + 8⟩ code.length
      code _ rfl hcne2 hd3
    have hd4 : u.data_bit_string.drop (u.bit_index + 8 + 8 + code.length)
        = entriesBits rest2 ++ rest := drop_add_of_drop_eq hd3
    have hrec := ih ⟨u.data_bit_string, u.bit_index + 8 + 8 + code.length⟩
      (dictInsert d0 code symbol) rest hd4
      (fun x hx => hall x (List.mem_cons_of_mem _ hx))
    show readCodes u d0 (rest2.length + 1) = _
    simp only [readCodes, hu1, hi1, hu2, hi2, hu3, hrec]
    have hlen : u.bit_index + 8 + 8 + code.length + (entriesBits rest2).length
        = u.bit_index + (entriesBits ((symbol, code) :: rest2)).length := by
      simp [entriesBits, List.length_append, length_natToBits]
      omega
    rw [hlen]
    rfl

theorem foldl_dictInsert_swap :
    ∀ (entries : List (Nat × List Bool)) (d0 : List (List Bool × Nat)),
      (entries.map (fun e => e.2)).Nodup →
      (∀ e ∈ entries, e.2 ∉ d0.map Prod.fst) →
      entries.foldl (fun d e => dictInsert d e.2 e.1) d0
        = d0 ++ entries.map (fun e => (e.2, e.1)) := by
  intro entries
  induction entries with
  | nil => intro d0 _ _; simp
  | cons e t ih =>
    intro d0 hnd hfresh
    obtain ⟨symbol, code⟩ := e
    simp only [List.map_cons, List.nodup_cons] at hnd
    have hf0 : code ∉ d0.map Prod.fst := hfresh (symbol, code) (by simp)
    have hfresh2 : ∀ e2 ∈ t, e2.2 ∉ (dictInsert d0 code symbol).map Prod.fst := by
      intro e2 he2
      rw [dictInsert_fresh symbol hf0, List.map_append, List.mem_append]
      push_neg
      refine ⟨hfresh e2 (by simp [he2]), ?_⟩
      simp only [List.map_cons, List.map_nil, List.mem_singleton]
      intro hc
      apply hnd.1
      rw [← hc]
      exact List.mem_map_of_mem (fun e => e.2) he2
    show t.foldl _ (dictInsert d0 code symbol) = _
    rw [ih (dictInsert d0 code symbol) hnd.2 hfresh2, dictInsert_fresh symbol hf0]
    simp

theorem lookup_swap :
    ∀ (entries : List (Nat × List Bool)), (entries.map (fun e => e.2)).Nodup →
      ∀ {symbol : Nat} {code : List Bool}, (symbol, code) ∈ entries →
      List.lookup code (entries.map (fun e => (e.2, e.1))) = some symbol := by
  intro entries
  induction entries with
  | nil => intro _ symbol code hmem; simp at hmem
  | cons e t ih =>
    intro hnd symbol code hmem
    obtain ⟨s2, c2⟩ := e
    simp only [List.map_cons, List.nodup_cons] at hnd
    simp only [List.map_cons, List.lookup]
    rcases List.mem_cons.mp hmem with heq | hmem2
    · obtain ⟨rfl, rfl⟩ : symbol = s2 ∧ code = c2 := by
        simpa [Prod.mk.injEq] using heq
      have hbeq : (code == code) = true := beq_self_eq_true code
      simp only [hbeq]
    · have hne : (code == c2) = false := by
        rw [beq_eq_false_iff_ne]
        intro hc
        apply hnd.1
        rw [← hc]
        exact List.mem_map_of_mem (fun e => e.2) hmem2
      simp only [hne]
      exact ih hnd.2 hmem2

theorem decodeLoop_consume (d : List (List Bool × Nat)) (c : List Bool) (sym : Nat)
    (hc : List.lookup c d = some sym)
    (hcl : ∀ q, q <+: c → q ≠ c → List.lookup q d = none) :
    ∀ (suf pre : List Bool), pre ++ suf = c → suf ≠ [] →
    ∀ (fuel : Nat) (u : Unpacker) (rest : List Bool) (n : Nat),
      u.data_bit_string.drop u.bit_index = suf ++ rest →
      u.data_bit_string.length - u.bit_index < fuel →
      decodeLoop d fuel u pre (n + 1) =
        match decodeLoop d (fuel - suf.length)
            ⟨u.data_bit_string, u.bit_index + suf.length⟩ [] n with
        | .ok out => .ok (sym :: out)
        | .error e => .error e := by
  intro suf
  induction suf with
  | nil => intro pre _ hne; exact absurd rfl hne
  | cons b suf2 ih =>
    intro pre hpre _ fuel u rest n hdrop hfuel
    have hlt : u.bit_index < u.data_bit_string.length := by
      by_contra hcon
      push_neg at hcon
      rw [List.drop_eq_nil_of_le hcon] at hdrop
      simp at hdrop
    obtain ⟨fuel2, rfl⟩ : ∃ f2, fuel = f2 + 1 := ⟨fuel - 1, by omega⟩
    have hu := unpack_eq_ok u 1 hlt
    have htake : (u.data_bit_string.drop u.bit_index).take 1 = [b] := by
      rw [hdrop]
      rfl
    rw [htake] at hu
    cases suf2 with
    | nil =>
      have hpre2 : pre ++ [b] = c := by simpa using hpre
      simp only [decodeLoop, if_neg (Nat.succ_ne_zero n), hu, hpre2, hc]
      simp only [List.length_singleton, Nat.add_sub_cancel]
    | cons b2 suf3 =>
      have hq : (pre ++ [b]) <+: c := by
        refine ⟨b2 :: suf3, ?_⟩
        rw [← hpre]
        simp
      have hqne : pre ++ [b] ≠ c := by
        intro hcon
        have h1 := congrArg List.length hpre
        have h2 := congrArg List.length hcon
        simp only [List.length_append, List.length_cons, List.length_singleton,
          List.length_nil] at h1 h2
        omega
      have hnone := hcl (pre ++ [b]) hq hqne
      have hd2 : u.data_bit_string.drop (u.bit_index + 1) = (b2 :: suf3) ++ rest := by
        have h := drop_add_of_drop_eq (a := [b]) (by simpa using hdrop)
        simpa using h
      have hrec := ih (pre ++ [b]) (by rw [← hpre]; simp) (by simp)
        fuel2 ⟨u.data_bit_string, u.bit_index + 1⟩ rest n hd2
        (by show u.data_bit_string.length - (u.bit_index + 1) < fuel2; omega)
      simp only [decodeLoop, if_neg (Nat.succ_ne_zero n), hu, hnone, hrec]
      have harith1 : fuel2 - (b2 :: suf3).length = fuel2 + 1 - (b :: b2 :: suf3).length := by
        simp only [List.length_cons]
        omega
      have harith2 : u.bit_index + 1 + (b2 :: suf3).length
          = u.bit_index + (b :: b2 :: suf3).length := by
        simp only [List.length_cons]
        omega
      rw [harith1, harith2]

theorem decodeLoop_decodes (dict : List (Nat × List Bool)) (d : List (List Bool × Nat))
    (hlook : ∀ sym c, List.lookup sym dict = some c →
      List.lookup c d = some sym ∧ c ≠ [] ∧
      (∀ q, q <+: c → q ≠ c → List.lookup q d = none)) :
    ∀ (data : List Nat) (fuel : Nat) (u : Unpacker) (rest : List Bool),
      (∀ sy ∈ data, (List.lookup sy dict).isSome) →
      u.data_bit_string.drop u.bit_index = payloadBits dict data ++ rest →
      u.data_bit_string.length - u.bit_index < fuel →
      decodeLoop d fuel u [] data.length = .ok data := by
  intro data
  induction data with
  | nil =>
    intro fuel u rest _ hdrop hfuel
    obtain ⟨fuel2, rfl⟩ : ∃ f2, fuel = f2 + 1 := ⟨fuel - 1, by omega⟩
    simp [decodeLoop]
  | cons sy data2 ih =>
    intro fuel u rest hall hdrop hfuel
    have hsy := hall sy (by simp)
    obtain ⟨c, hc⟩ : ∃ c, List.lookup sy dict = some c := by
      cases hx : List.lookup sy dict with
      | none => rw [hx] at hsy; simp at hsy
      | some c => exact ⟨c, rfl⟩
    obtain ⟨hcd, hcne, hccl⟩ := hlook sy c hc
    have hdrop2 : u.data_bit_string.drop u.bit_index
        = c ++ (payloadBits dict data2 ++ rest) := by
      rw [hdrop]
      simp [payloadBits, hc, List.append_assoc]
    have hstep := decodeLoop_consume d c sy hcd hccl c [] (by simp) hcne fuel u
      (payloadBits dict data2 ++ rest) data2.length hdrop2 hfuel
    have hrem : u.data_bit_string.length - u.bit_index
        = c.length + (payloadBits dict data2 ++ rest).length := by
      have hlen := congrArg List.length hdrop2
      rw [List.length_drop, List.length_append] at hlen
      omega
    have hrec : decodeLoop d (fuel - c.length)
        ⟨u.data_bit_string, u.bit_index + c.length⟩ [] data2.length = .ok data2 := by
      apply ih (fuel - c.length) ⟨u.data_bit_string, u.bit_index + c.length⟩ rest
        (fun x hx => hall x (by simp [hx]))
      · exact drop_add_of_drop_eq hdrop2
      · show u.data_bit_string.length - (u.bit_index + c.length) < fuel - c.length
        rw [List.length_append] at hrem
        omega
    show decodeLoop d fuel u [] (data2.length + 1) = _
    rw [hstep, hrec]

theorem decompress_spec (dict : List (Nat × List Bool)) (data blob : List Nat)
    (extra : List Bool)
    (hbits : bytesToBits blob = natToBits 8 (dict.length - 1) ++ entriesBits dict ++
      natToBits 32 data.length ++ payloadBits dict data ++ extra)
    (hdlen1 : 1 ≤ dict.length) (hdlen : dict.length ≤ 256)
    (hentry : ∀ e ∈ dict, e.1 < 256 ∧ e.2 ≠ [] ∧ e.2.length < 256)
    (hpf : dict.Pairwise (fun e1 e2 => ¬ e1.2 <+: e2.2 ∧ ¬ e2.2 <+: e1.2))
    (hdata : ∀ sy ∈ data, (List.lookup sy dict).isSome)
    (h32 : data.length < 2 ^ 32) :
    decompress blob = .ok data := by
  have h28 : (256 : Nat) = 2 ^ 8 := by norm_num
  have hcodesnd : (dict.map (fun e => e.2)).Nodup := by
    have hp2 : dict.Pairwise (fun e1 e2 => e1.2 ≠ e2.2) := by
      apply hpf.imp
      intro a b hab hc
      exact hab.1 (hc ▸ List.prefix_refl a.2)
    show List.Pairwise (fun a b => a ≠ b) (dict.map (fun e => e.2))
    rw [List.pairwise_map]
    exact hp2
  -- the bit stream, piece by piece
  have hd0 : (bytesToBits blob).drop 0 = natToBits 8 (dict.length - 1) ++
      (entriesBits dict ++ (natToBits 32 data.length ++
        (payloadBits dict data ++ extra))) := by
    rw [List.drop_zero, hbits]
    simp [List.append_assoc]
  have hd1 : (bytesToBits blob).drop (0 + 8) = entriesBits dict ++
      (natToBits 32 data.length ++ (payloadBits dict data ++ extra)) := by
    have h := drop_add_of_drop_eq hd0
    rw [length_natToBits] at h
    exact h
  have hd2 : (bytesToBits blob).drop (0 + 8 + (entriesBits dict).length)
      = natToBits 32 data.length ++ (payloadBits dict data ++ extra) :=
    drop_add_of_drop_eq hd1
  have hd3 : (bytesToBits blob).drop (0 + 8 + (entriesBits dict).length + 32)
      = payloadBits dict data ++ extra := by
    have h := drop_add_of_drop_eq hd2
    rw [length_natToBits] at h
    exact h
  -- the four header reads
  have hu1 := unpack_exact ⟨bytesToBits blob, 0⟩ 8 (natToBits 8 (dict.length - 1)) _
    (length_natToBits 8 _) (natToBits_ne_nil (by omega)) hd0
  have hi1 : int2 (natToBits 8 (dict.length - 1)) = .ok (dict.length - 1) := by
    rw [int2_ok_of_ne_nil (natToBits_ne_nil (by omega)),
        bitsToNat_natToBits_eq 8 (dict.length - 1) (by omega)]
  have hcount : dict.length - 1 + 1 = dict.length := by omega
  have hrc := readCodes_exact dict ⟨bytesToBits blob, 0 + 8⟩ [] _ hd1 hentry
  have hswap : dict.foldl (fun d e => dictInsert d e.2 e.1) []
      = dict.map (fun e => (e.2, e.1)) := by
    rw [foldl_dictInsert_swap dict [] hcodesnd (by simp)]
    simp
  rw [hswap] at hrc
  have hu2 := unpack_exact ⟨bytesToBits blob, 0 + 8 + (entriesBits dict).length⟩ 32
    (natToBits 32 data.length) _ (length_natToBits 32 _)
    (natToBits_ne_nil (by omega)) hd2
  have hi2 : int2 (natToBits 32 data.length) = .ok data.length := by
    rw [int2_ok_of_ne_nil (natToBits_ne_nil (by omega)),
        bitsToNat_natToBits_eq 32 data.length h32]
  -- the reverse table decodes every code back to its symbol
  have hlook : ∀ sym c, List.lookup sym dict = some c →
      List.lookup c (dict.map (fun e => (e.2, e.1))) = some sym ∧ c ≠ [] ∧
      (∀ q, q <+: c → q ≠ c →
        List.lookup q (dict.map (fun e => (e.2, e.1))) = none) := by
    intro sym c hc
    have hmem := lookup_mem hc
    refine ⟨lookup_swap dict hcodesnd hmem, (hentry (sym, c) hmem).2.1, ?_⟩
    intro q hq hqne
    apply lookup_eq_none_of
    intro e he hqe
    obtain ⟨e0, he0, rfl⟩ := List.mem_map.mp he
    have hqe2 : q = e0.2 := hqe
    have hne0 : e0 ≠ (sym, c) := by
      intro hcon
      apply hqne
      rw [hqe2, hcon]
    have hsymm : Symmetric (fun e1 e2 : Nat × List Bool =>
        ¬ e1.2 <+: e2.2 ∧ ¬ e2.2 <+: e1.2) := fun a b hab => ⟨hab.2, hab.1⟩
    have hp := hpf.forall hsymm he0 hmem hne0
    apply hp.1
    rw [← hqe2]
    exact hq
  have hdec := decodeLoop_decodes dict (dict.map (fun e => (e.2, e.1))) hlook data
    ((bytesToBits blob).length + 1)
    ⟨bytesToBits blob, 0 + 8 + (entriesBits dict).length + 32⟩ extra hdata hd3
    (by show (bytesToBits blob).length - _ < (bytesToBits blob).length + 1; omega)
  show decompress blob = .ok data
  simp only [decompress, Unpacker.init, hu1, hi1, hcount, hrc, hu2, hi2]
  exact hdec

/-! ### Claim C1: the round trip -/

/-- C1 counterexample: for the non-empty one-byte input `[66]` — a byte
sequence with one distinct value, within the scope of the claim — the encoder
crashes with the ValueError of the single-symbol bug, so no blob exists and
`decode(encode(b))` cannot return `b`. -/
theorem C1_counterexample :
    encode [66] = .error .valueError ∧ ∀ blob, encode [66] ≠ .ok blob := by
  refine ⟨by decide, ?_⟩
  intro blob h
  rw [show encode [66] = .error .valueError from by decide] at h
  exact absurd h (by simp)

/-- C1 as amended: for every non-empty byte sequence with at least two (and
hence at most 256) distinct byte values and fewer than `2^32` bytes,
decompressing the compressed blob returns exactly the original input. -/
theorem C1_round_trip (data : List Nat) (hne : data ≠ []) (h256 : ∀ b ∈ data, b < 256)
    (h2 : 2 ≤ (symbolsOf data).length) (h32 : data.length < 2 ^ 32) :
    ∃ blob, encode data = .ok blob ∧ decompress blob = .ok data := by
  obtain ⟨t, blob, hinit, hcomp, henc, hdata, hperm, hpf, hentry, hd2, hd256, hdict, hbits⟩ :=
    encode_spec data hne h256 h2 h32
  refine ⟨blob, henc, ?_⟩
  apply decompress_spec t.to_dict data blob
    (List.replicate ((8 - (totalBits t).length % 8) % 8) false)
  · rw [hbits]
    unfold totalBits
    rw [hdata]
  · omega
  · exact hd256
  · exact hentry
  · exact hpf
  · intro sy hsy
    obtain ⟨c, hc, _⟩ := hdict sy hsy
    rw [hc]
    rfl
  · exact h32

/-- Witness for the amended C1 at the two-byte input `[65, 66]`. -/
theorem C1_round_trip_witness :
    ∃ blob, encode [65, 66] = .ok blob ∧ decompress blob = .ok [65, 66] :=
  C1_round_trip [65, 66] (by decide) (by decide) (by decide) (by decide)

